import Mathlib

/-!
Shallow embedding of the triple-redundant digit-storage core of the
`numbers` repository (`app/storage/`): the canonical flat-file reader
(`file_source.py`), the checksummed SQLite chunk store
(`sqlite_source.py`), the packed 4-bit-per-digit binary store
(`binary_source.py`, plus the append-based variant in
`base_storage.py`), and the orchestrating manager (`manager.py`).

Python strings are modelled as `List Char`, byte files as `List Nat`
(each entry < 256 wherever written by the code), the SQLite table as a
`List Chunk`, and raised exceptions as `Except PyErr`.
-/

/-- The exception classes the storage core raises:
`ValueError`, `CorruptionError` (app.core.exceptions), `StorageError`
(app.core.exceptions), `FileNotFoundError`. -/
inductive PyErr where
  | valueError : PyErr
  | corruptionError : PyErr
  | storageError : PyErr
  | fileNotFound : PyErr
deriving DecidableEq, Repr

/-- ASCII digit test (`'0' ≤ c ≤ '9'`, i.e. codepoint between 48 and
57), as Python's `str.isdigit` behaves on the ASCII characters this
data consists of. -/
def isAsciiDigit (c : Char) : Bool :=
  48 ≤ c.toNat && c.toNat ≤ 57

/-- Python `digits.isdigit()`: true iff the string is nonempty and all
characters are digits. -/
def pyIsdigit (s : List Char) : Bool :=
  !s.isEmpty && s.all isAsciiDigit

/-- Python `int(c)` for a single digit character. -/
def digitVal (c : Char) : Nat :=
  c.toNat - '0'.toNat

/-- Modelled from the library: `hashlib.md5(digits.encode()).hexdigest()`.
The code relies only on the digest agreeing on equal inputs and (for the
short distinct digit strings arising here) differing on distinct inputs;
we model it as the identity map, which has exactly these properties. -/
def md5hex (s : List Char) : List Char := s

/-- `str.replace` chain used by the manager's cleaning step: removes
every `'.'`, `' '`, `'\n'`, `'\r'` character. -/
def cleanChars (s : List Char) : List Char :=
  s.filter (fun c => !(c = '.' || c = ' ' || c = '\n' || c = '\r'))

namespace FileSource

/-- `FileSource.get` (file_source.py): validates `start`/`length`, seeks
to `start` and reads `length` characters (fewer if the file ends first);
an empty read at offset 0 raises `StorageError`.  Positions are `Nat`,
so the `start < 0` branch of the Python code is unreachable here. -/
def get (content : List Char) (start length : Nat) : Except PyErr (List Char) :=
  if length < 1 then .error .valueError
  else
    let c := (content.drop start).take length
    if c = [] ∧ start = 0 then .error .storageError
    else .ok c

/-- `FileSource.get_file_size`: `os.path.getsize`, the raw character
count of the canonical file. -/
def get_file_size (content : List Char) : Nat :=
  content.length

end FileSource

/-- One row of the `math_chunks` table (sqlite_source.py). -/
structure Chunk where
  chunk_id : Nat
  start_position : Nat
  end_position : Nat
  digits : List Char
  checksum : List Char
deriving DecidableEq, Repr

namespace SQLiteSource

/-- The row `(chunk_id, start_pos, end_pos, digits, checksum)` that
`SQLiteSource.store_chunk` persists: `end_pos = start_pos + len(digits)`
and `checksum = hashlib.md5(digits.encode()).hexdigest()`. -/
def mkRow (chunk_id start_pos : Nat) (digits : List Char) : Chunk :=
  ⟨chunk_id, start_pos, start_pos + digits.length, digits, md5hex digits⟩

/-- `SQLiteSource.store_chunk`: computes `end_pos` and the checksum and
executes `INSERT OR REPLACE` keyed on the `chunk_id` primary key. -/
def store_chunk (db : List Chunk) (chunk_id start_pos : Nat) (digits : List Char) :
    List Chunk :=
  if db.any (fun c => c.chunk_id = chunk_id) then
    db.map (fun c => if c.chunk_id = chunk_id then mkRow chunk_id start_pos digits else c)
  else
    db ++ [mkRow chunk_id start_pos digits]

/-- Stable insertion step for the `ORDER BY start_position` model. -/
def insertByStart (c : Chunk) : List Chunk → List Chunk
  | [] => [c]
  | d :: ds =>
    if d.start_position < c.start_position then d :: insertByStart c ds
    else c :: d :: ds

/-- Sort by `start_position` (stable insertion sort; SQLite leaves the
order among equal keys unspecified). -/
def sortByStart (l : List Chunk) : List Chunk :=
  l.foldr insertByStart []

/-- The `SELECT ... WHERE start_position < end AND end_position > start
ORDER BY start_position` of `SQLiteSource.get`. -/
def selectChunks (db : List Chunk) (start endPos : Nat) : List Chunk :=
  sortByStart (db.filter (fun c => c.start_position < endPos && c.end_position > start))

/-- The body of the `for chunk_start, chunk_end, chunk_digits, checksum
in chunks` loop of `SQLiteSource.get`: verify the checksum, then append
the overlap of the chunk with `[start, endPos)`. -/
def chunkStep (start endPos : Nat) (acc : List Char) (c : Chunk) :
    Except PyErr (List Char) :=
  if md5hex c.digits ≠ c.checksum then .error .corruptionError
  else
    let overlap_start := max start c.start_position
    let overlap_end := min endPos c.end_position
    if overlap_start < overlap_end then
      let chunk_offset := overlap_start - c.start_position
      let chunk_length := overlap_end - overlap_start
      .ok (acc ++ ((c.digits.drop chunk_offset).take chunk_length))
    else
      .ok acc

/-- `SQLiteSource.get` (sqlite_source.py): select the intersecting
chunks ordered by start position (`ValueError` when none), verify each
checksum (`CorruptionError` on mismatch), concatenate the overlaps, and
raise `ValueError` unless exactly `length` characters were assembled. -/
def get (db : List Chunk) (start length : Nat) : Except PyErr (List Char) :=
  let endPos := start + length
  let chunks := selectChunks db start endPos
  if chunks = [] then .error .valueError
  else
    match chunks.foldlM (chunkStep start endPos) [] with
    | .error e => .error e
    | .ok result =>
      if result.length ≠ length then .error .valueError
      else .ok result

/-- `SQLiteSource.has_data`: `SELECT COUNT(*) > 0`. -/
def has_data (db : List Chunk) : Bool :=
  db.length > 0

end SQLiteSource

/-- The digit-pair packing loop shared by both `store_chunk` variants
and `append_digits`: `for i in range(0, len(digits), 2)`, two digits per
byte (`int(digits[i]) * 16 + int(digits[i+1])`), a trailing lone digit
padded with a 0 low nibble. -/
def packDigits : List Char → List Nat
  | [] => []
  | [d] => [digitVal d * 16]
  | d1 :: d2 :: rest => (digitVal d1 * 16 + digitVal d2) :: packDigits rest

/-- Positioned overwrite on a byte file: `f.seek(pos)` then
`f.write(data)`, zero-filling any gap past the current end of file. -/
def writeAt (file : List Nat) (pos : Nat) (data : List Nat) : List Nat :=
  file.take pos ++ List.replicate (pos - file.length) 0 ++ data ++
    file.drop (pos + data.length)

/-- `str(n)` for the nibble values of one unpacked byte:
`str(byte >> 4) + str(byte & 0x0F)`. -/
def unpackByte (b : Nat) : List Char :=
  (Nat.repr (b / 16)).toList ++ (Nat.repr (b % 16)).toList

/-- The `for byte_val in binary_data` unpacking loop of
`BinarySource.get`. -/
def unpackBytes (bs : List Nat) : List Char :=
  bs.foldr (fun b acc => unpackByte b ++ acc) []

namespace BinarySource

/-- `BinarySource.store_chunk` (binary_source.py, the seek-based
variant): validates `digits.isdigit()` (`ValueError` otherwise), seeks
to `start_pos // 2` and overwrites the packed bytes there.  A missing
file is created empty first (mode `w+b`), so the file state is the byte
list as it exists when the write happens. -/
def store_chunk (file : List Nat) (start_pos : Nat) (digits : List Char) :
    Except PyErr (List Nat) :=
  if !pyIsdigit digits then .error .valueError
  else
    let byte_position := start_pos / 2
    .ok (writeAt file byte_position (packDigits digits))

/-- `BinarySource.get` (binary_source.py): reads the byte span
`[start // 2, (start + length + 1) // 2)`, raises `StorageError` when
the read comes back empty, unpacks every byte via `str`, slices at
`start % 2` for `length` characters and raises `StorageError` if fewer
result.  The caller-visible `FileNotFoundError` for an absent file is
modelled by the `Option` at the manager layer; here `file` is the
existing file's bytes.  `start < 0` is unrepresentable over `Nat`. -/
def get (file : List Nat) (start length : Nat) : Except PyErr (List Char) :=
  if length < 1 then .error .valueError
  else
    let start_byte := start / 2
    let end_pos := start + length
    let end_byte := (end_pos + 1) / 2
    let binary_data := (file.drop start_byte).take (end_byte - start_byte)
    if binary_data = [] then .error .storageError
    else
      let digits := unpackBytes binary_data
      let offset := start % 2
      let result := (digits.drop offset).take length
      if result.length ≠ length then .error .storageError
      else .ok result

end BinarySource

namespace BaseBinarySource

/-- `BinarySource.store_chunk` from base_storage.py (the append-based
variant): opens the file in mode `'ab'` and appends the packed bytes;
the `start_pos` argument is accepted but never used.  No `isdigit`
validation is performed by this variant. -/
def store_chunk (file : List Nat) (_start_pos : Nat) (digits : List Char) : List Nat :=
  file ++ packDigits digits

end BaseBinarySource

/-- A left-to-right cache build through the seek-based
`BinarySource.store_chunk`: each chunk is written at the position right
after the digits written so far (`start_pos = chunk_id * chunk_size`
in `build_caches`). -/
def buildSeek : List Nat → Nat → List (List Char) → Except PyErr (List Nat)
  | file, _, [] => .ok file
  | file, pos, d :: ds => do
      let f ← BinarySource.store_chunk file pos d
      buildSeek f (pos + d.length) ds

/-- The same build through the append-based
`BaseBinarySource.store_chunk`. -/
def buildAppend : List Nat → Nat → List (List Char) → List Nat
  | file, _, [] => file
  | file, pos, d :: ds => buildAppend (BaseBinarySource.store_chunk file pos d) (pos + d.length) ds

/-- The state a `MathConstantManager` (manager.py) reads through:
the canonical file's raw characters, the SQLite chunk table, the packed
binary file (`none` when the file does not exist), the request counter
and the `verify_every` configuration value. -/
structure Manager where
  content : List Char
  db : List Chunk
  binFile : Option (List Nat)
  request_count : Nat
  verify_every : Nat

namespace Manager

/-- `MathConstantManager.has_sqlite_cache`: `sqlite_source.has_data()`
(exceptions mapped to `False`). -/
def has_sqlite_cache (m : Manager) : Bool :=
  SQLiteSource.has_data m.db

/-- `MathConstantManager.has_binary_cache`: the binary file exists and
has nonzero size. -/
def has_binary_cache (m : Manager) : Bool :=
  match m.binFile with
  | some bf => bf.length > 0
  | none => false

/-- `MathConstantManager.get_file_size`. -/
def get_file_size (m : Manager) : Nat :=
  FileSource.get_file_size m.content

/-- `MathConstantManager._get_cleaned_digits_from_file`: over-read by 10
characters, strip `'.'`, spaces and newlines, truncate to `length`. -/
def getCleanedDigitsFromFile (m : Manager) (start length : Nat) :
    Except PyErr (List Char) :=
  let buffer_size := length + 10
  match FileSource.get m.content start buffer_size with
  | .error e => .error e
  | .ok raw_content =>
    let cleaned_content := cleanChars raw_content
    .ok (cleaned_content.take length)

/-- The body of the inner `try` of `MathConstantManager.get_digits`:
`sqlite_source.get`, then, when verifying, the comparison against the
cleaned file range and (when the binary cache exists) against the
binary source, whose `FileNotFoundError` alone is passed over. -/
def tryChunkPath (m : Manager) (start length : Nat) (should_verify : Bool) :
    Except PyErr (List Char) :=
  match SQLiteSource.get m.db start length with
  | .error e => .error e
  | .ok result =>
    if should_verify then
      match getCleanedDigitsFromFile m start length with
      | .error e => .error e
      | .ok file_result =>
        if result ≠ file_result then .error .corruptionError
        else if m.has_binary_cache then
          match m.binFile with
          | some bf =>
            match BinarySource.get bf start length with
            | .ok binary_result =>
                if result ≠ binary_result then .error .corruptionError else .ok result
            | .error .fileNotFound => .ok result
            | .error e => .error e
          | none => .ok result
        else .ok result
    else .ok result

/-- `MathConstantManager.get_digits` (manager.py): bump the request
counter, decide `should_verify`, try the SQLite path when the chunk
cache has data — catching `ValueError` and `CorruptionError` by falling
through to the file — and let the outer `except Exception` retry the
file fallback on any other failure. -/
def get_digits (m : Manager) (start length : Nat) (force_verify : Bool) :
    Except PyErr (List Char) :=
  let count := m.request_count + 1
  let should_verify := force_verify || decide (count % m.verify_every = 0)
  let attempt : Except PyErr (List Char) :=
    if m.has_sqlite_cache then
      match tryChunkPath m start length should_verify with
      | .ok result => .ok result
      | .error .valueError => getCleanedDigitsFromFile m start length
      | .error .corruptionError => getCleanedDigitsFromFile m start length
      | .error e => .error e
    else
      getCleanedDigitsFromFile m start length
  match attempt with
  | .ok result => .ok result
  | .error _ => getCleanedDigitsFromFile m start length

/-- `search_chunk_size = 100000` in `search_sequence`. -/
def searchChunkSize : Nat := 100000

/-- The inner `while pos < len(chunk) - len(sequence) + 1` scan of
`search_sequence`: append `current_pos + pos` for every match, breaking
as soon as `max_results` positions have accumulated.  The loop bound is
`chunk.length + 1 - sequence.length`, which (like the Python `int`
expression) admits no iteration when the sequence is longer than the
chunk. -/
def scanWindow (chunk sequence : List Char) (base max_results : Nat)
    (positions : List Nat) (pos : Nat) : List Nat :=
  if pos < chunk.length + 1 - sequence.length then
    if (chunk.drop pos).take sequence.length = sequence then
      let positions' := positions ++ [base + pos]
      if max_results ≤ positions'.length then positions'
      else scanWindow chunk sequence base max_results positions' (pos + 1)
    else scanWindow chunk sequence base max_results positions (pos + 1)
  else positions
termination_by chunk.length + 1 - sequence.length - pos
decreasing_by all_goals omega

/-- The outer `while len(positions) < max_results and current_pos <
file_size` loop of `search_sequence`, fuelled: each iteration reads one
window through `get_digits` and advances by
`search_chunk_size - len(sequence) + 1`.  Whenever the loop body runs,
that step is at least 1, so `file_size + 1` fuel is never exhausted. -/
def searchLoop (m : Manager) (sequence : List Char) (max_results : Nat) :
    Nat → Nat → List Nat → Except PyErr (List Nat)
  | 0, _, positions => .ok positions
  | fuel + 1, current_pos, positions =>
    let file_size := m.get_file_size
    if positions.length < max_results ∧ current_pos < file_size then
      let remaining := file_size - current_pos
      let chunk_size := min searchChunkSize remaining
      if chunk_size < sequence.length then .ok positions
      else
        match m.get_digits current_pos chunk_size false with
        | .error e => .error e
        | .ok chunk =>
          searchLoop m sequence max_results fuel
            (current_pos + (searchChunkSize + 1 - sequence.length))
            (scanWindow chunk sequence current_pos max_results positions 0)
    else .ok positions

/-- `MathConstantManager.search_sequence`: run the windowed scan from
`start_from`; any escaping exception is re-raised as `StorageError`. -/
def search_sequence (m : Manager) (sequence : List Char) (max_results : Nat)
    (start_from : Nat) : Except PyErr (List Nat) :=
  match searchLoop m sequence max_results (m.get_file_size + 1) start_from [] with
  | .ok positions => .ok positions
  | .error _ => .error .storageError

end Manager

/-- A manager state with a tampered chunk: the chunk's digits were
overwritten with `"99999"` while its checksum is still the digest of
the original `"12345"`; the canonical file holds `"1234567890"`. -/
def managerC1 : Manager :=
  { content := ['1', '2', '3', '4', '5', '6', '7', '8', '9', '0']
    db := [⟨0, 0, 5, ['9', '9', '9', '9', '9'], ['1', '2', '3', '4', '5']⟩]
    binFile := none
    request_count := 0
    verify_every := 100 }

/-- A manager state whose persisted chunk has a valid checksum but
digits (`"99999"`) that differ from the canonical file (`"1234567890"`):
the chunk-store read succeeds and the `force_verify` comparison against
the cleaned file range fails. -/
def managerC1b : Manager :=
  { content := ['1', '2', '3', '4', '5', '6', '7', '8', '9', '0']
    db := [⟨0, 0, 5, ['9', '9', '9', '9', '9'], ['9', '9', '9', '9', '9']⟩]
    binFile := none
    request_count := 0
    verify_every := 100 }

/-- A manager over the canonical file `"3.14"` (raw size 4, containing
a decimal point), with no caches built. -/
def managerC2 : Manager :=
  { content := ['3', '.', '1', '4']
    db := []
    binFile := none
    request_count := 0
    verify_every := 100 }

/-- A manager over the pure-digit canonical file `"123"`, no caches. -/
def managerC2w : Manager :=
  { content := ['1', '2', '3']
    db := []
    binFile := none
    request_count := 0
    verify_every := 100 }

/-- A manager over the pure-digit canonical file `"1234"` (size 4), no
caches. -/
def managerC3 : Manager :=
  { content := ['1', '2', '3', '4']
    db := []
    binFile := none
    request_count := 0
    verify_every := 100 }

/-- A chunk table holding two distinct rows covering the same interval
`[0, 5)` (distinct chunk ids, both checksums valid). -/
def dbC6 : List Chunk :=
  [⟨0, 0, 5, ['0', '0', '0', '0', '0'], ['0', '0', '0', '0', '0']⟩,
   ⟨1, 0, 5, ['1', '1', '1', '1', '1'], ['1', '1', '1', '1', '1']⟩]

/-- A chunk table whose single chunk covers `[0, 5)` only, leaving
`[5, 10)` uncovered. -/
def dbC6w : List Chunk :=
  [⟨0, 0, 5, ['0', '0', '0', '0', '0'], ['0', '0', '0', '0', '0']⟩]

/-- A manager over a canonical file of 100001 copies of the digit `'1'`
(one more than the `search_sequence` window size), no caches. -/
def managerC7 : Manager :=
  { content := List.replicate 100001 '1'
    db := []
    binFile := none
    request_count := 0
    verify_every := 100 }

/-- A manager over the pure-digit canonical file `"12312"`, no caches. -/
def managerC7w : Manager :=
  { content := ['1', '2', '3', '1', '2']
    db := []
    binFile := none
    request_count := 0
    verify_every := 100 }

/-- The offsets inside a scan window at which `sequence` matches, from
`pos` up to the window's last admissible offset — what the inner loop
of `search_sequence` enumerates. -/
def matchOffsets (chunk sequence : List Char) (pos : Nat) : List Nat :=
  (List.range' pos (chunk.length + 1 - sequence.length - pos)).filter
    (fun q => decide ((chunk.drop q).take sequence.length = sequence))

/-- The number of characters a chunk contributes to a
`SQLiteSource.get` over `[start, endPos)`: the size of the overlap of
its interval with the requested range. -/
def overlapLen (start endPos : Nat) (c : Chunk) : Nat :=
  min endPos c.end_position - max start c.start_position

/-- The set of absolute positions a chunk contributes to a
`SQLiteSource.get` over `[start, endPos)`. -/
def overlapSet (start endPos : Nat) (c : Chunk) : Finset Nat :=
  Finset.Ico (max start c.start_position) (min endPos c.end_position)

/-- The positions at which `sequence` occurs in `content`, at or after
`from_pos`, in ascending order: the reference list of matches that
`search_sequence` is claimed to enumerate. -/
def occList (content sequence : List Char) (from_pos : Nat) : List Nat :=
  (List.range (content.length + 1 - sequence.length)).filter
    (fun p => decide (from_pos ≤ p ∧ (content.drop p).take sequence.length = sequence))

/-!
Theorems.  Each claim theorem is marked with its claim id; unnamed
lemmas in between are shared helper results.
-/

/-- C4 counterexample: a packed byte `0xAB = 171` has high nibble
`171 >> 4 = 10 > 9`, yet `BinarySource.get` on a file consisting of that
byte returns the decoded string `"10"` (the decimal representation of
the invalid nibble) instead of raising a corruption error. -/
theorem C4_counterexample :
    (171 : Nat) / 16 > 9 ∧ BinarySource.get [171] 0 2 = Except.ok ['1', '0'] :=
  ⟨by decide, by rfl⟩

/-- C4 (amended): `BinarySource.get` performs no nibble validation at
all — no input ever makes it raise `CorruptionError`; a byte with a
nibble value above 9 is silently decoded through the decimal string of
each nibble. -/
theorem C4_no_nibble_validation (file : List Nat) (start length : Nat) :
    BinarySource.get file start length ≠ Except.error PyErr.corruptionError := by
  unfold BinarySource.get
  intro h
  dsimp only at h
  repeat' split at h
  all_goals simp at h

lemma mem_store_chunk {db : List Chunk} {i s : Nat} {d : List Char} {c : Chunk}
    (hc : c ∈ SQLiteSource.store_chunk db i s d) :
    c ∈ db ∨ c = SQLiteSource.mkRow i s d := by
  unfold SQLiteSource.store_chunk at hc
  split at hc
  · rcases List.mem_map.1 hc with ⟨c', hc', he⟩
    by_cases h : c'.chunk_id = i
    · right
      rw [if_pos h] at he
      exact he.symm
    · left
      rw [if_neg h] at he
      exact he ▸ hc'
  · rcases List.mem_append.1 hc with h | h
    · exact Or.inl h
    · exact Or.inr (List.mem_singleton.1 h)

lemma store_chunk_ids (db : List Chunk) (i s : Nat) (d : List Char) :
    (SQLiteSource.store_chunk db i s d).map Chunk.chunk_id =
      if db.any (fun c => c.chunk_id = i) then db.map Chunk.chunk_id
      else db.map Chunk.chunk_id ++ [i] := by
  unfold SQLiteSource.store_chunk
  split
  · rw [List.map_map]
    refine List.map_congr_left (fun c hc => ?_)
    by_cases h : c.chunk_id = i
    · simp [h, SQLiteSource.mkRow]
    · simp [h]
  · rw [List.map_append]
    rfl

lemma store_preserves_inv (db : List Chunk) (i s : Nat) (d : List Char)
    (h1 : ∀ c ∈ db, c.end_position - c.start_position = c.digits.length ∧
      c.checksum = md5hex c.digits)
    (h2 : (db.map Chunk.chunk_id).Nodup) :
    (∀ c ∈ SQLiteSource.store_chunk db i s d,
      c.end_position - c.start_position = c.digits.length ∧ c.checksum = md5hex c.digits) ∧
    ((SQLiteSource.store_chunk db i s d).map Chunk.chunk_id).Nodup := by
  constructor
  · intro c hc
    rcases mem_store_chunk hc with h | h
    · exact h1 c h
    · subst h
      exact ⟨by simp [SQLiteSource.mkRow], rfl⟩
  · rw [store_chunk_ids]
    split
    · exact h2
    · rename_i hany
      have hni : i ∉ db.map Chunk.chunk_id := by
        intro hmem
        rcases List.mem_map.1 hmem with ⟨c, hc, he⟩
        exact hany (List.any_eq_true.2 ⟨c, hc, by simp [he]⟩)
      simp [List.nodup_append, h2, hni]

lemma foldl_store_inv (calls : List (Nat × Nat × List Char)) (db : List Chunk)
    (h1 : ∀ c ∈ db, c.end_position - c.start_position = c.digits.length ∧
      c.checksum = md5hex c.digits)
    (h2 : (db.map Chunk.chunk_id).Nodup) :
    (∀ c ∈ calls.foldl (fun db a => SQLiteSource.store_chunk db a.1 a.2.1 a.2.2) db,
      c.end_position - c.start_position = c.digits.length ∧ c.checksum = md5hex c.digits) ∧
    ((calls.foldl (fun db a => SQLiteSource.store_chunk db a.1 a.2.1 a.2.2) db).map
      Chunk.chunk_id).Nodup := by
  induction calls generalizing db with
  | nil => exact ⟨h1, h2⟩
  | cons a rest ih =>
    have h := store_preserves_inv db a.1 a.2.1 a.2.2 h1 h2
    exact ih _ h.1 h.2

/-- C8: after any sequence of `SQLiteSource.store_chunk` calls starting
from an empty table, every persisted row satisfies
`end_position - start_position = len(digits)` and
`checksum = hash(digits)`, and no two rows share a `chunk_id`
(`INSERT OR REPLACE` on the primary key replaces instead of adding). -/
theorem C8_store_chunk_invariant (calls : List (Nat × Nat × List Char)) :
    (∀ c ∈ calls.foldl (fun db a => SQLiteSource.store_chunk db a.1 a.2.1 a.2.2) [],
      c.end_position - c.start_position = c.digits.length ∧ c.checksum = md5hex c.digits) ∧
    ((calls.foldl (fun db a => SQLiteSource.store_chunk db a.1 a.2.1 a.2.2) []).map
      Chunk.chunk_id).Nodup :=
  foldl_store_inv calls [] (by simp) (by simp)

lemma digitVal_le_nine {c : Char} (h : isAsciiDigit c = true) : digitVal c ≤ 9 := by
  simp only [isAsciiDigit, Bool.and_eq_true, decide_eq_true_eq] at h
  unfold digitVal
  rw [show '0'.toNat = 48 from rfl]
  omega

lemma digitChar_digitVal {c : Char} (h : isAsciiDigit c = true) :
    Nat.digitChar (digitVal c) = c := by
  simp only [isAsciiDigit, Bool.and_eq_true, decide_eq_true_eq] at h
  unfold digitVal
  rw [← Char.ofNat_toNat c]
  obtain ⟨m, hm⟩ : ∃ m, c.toNat = m := ⟨_, rfl⟩
  rw [hm] at h ⊢
  obtain ⟨h1, h2⟩ := h
  interval_cases m <;> rfl

lemma repr_toList_of_le_nine {n : Nat} (h : n ≤ 9) :
    (Nat.repr n).toList = [Nat.digitChar n] := by
  interval_cases n <;> rfl

lemma unpackByte_valid {b : Nat} (h1 : b / 16 ≤ 9) (h2 : b % 16 ≤ 9) :
    unpackByte b = [Nat.digitChar (b / 16), Nat.digitChar (b % 16)] := by
  unfold unpackByte
  rw [repr_toList_of_le_nine h1, repr_toList_of_le_nine h2]
  rfl

lemma unpackBytes_nil : unpackBytes [] = [] := rfl

lemma unpackBytes_cons (b : Nat) (bs : List Nat) :
    unpackBytes (b :: bs) = unpackByte b ++ unpackBytes bs := rfl

lemma unpackBytes_append (a b : List Nat) :
    unpackBytes (a ++ b) = unpackBytes a ++ unpackBytes b := by
  induction a with
  | nil => rfl
  | cons x xs ih => simp [unpackBytes_cons, ih]

lemma unpackBytes_length (bs : List Nat) (hv : ∀ b ∈ bs, b / 16 ≤ 9 ∧ b % 16 ≤ 9) :
    (unpackBytes bs).length = 2 * bs.length := by
  induction bs with
  | nil => rfl
  | cons b rest ih =>
    have hb := hv b (by simp)
    rw [unpackBytes_cons, List.length_append, unpackByte_valid hb.1 hb.2,
      ih (fun x hx => hv x (by simp [hx]))]
    simp
    omega

lemma unpackBytes_drop (bs : List Nat) (k : Nat)
    (hv : ∀ b ∈ bs, b / 16 ≤ 9 ∧ b % 16 ≤ 9) :
    unpackBytes (bs.drop k) = (unpackBytes bs).drop (2 * k) := by
  induction k generalizing bs with
  | zero => simp
  | succ k ih =>
    match bs with
    | [] => simp [unpackBytes_nil]
    | b :: rest =>
      have hb := hv b (by simp)
      rw [List.drop_succ_cons, ih rest (fun x hx => hv x (by simp [hx])),
        unpackBytes_cons, unpackByte_valid hb.1 hb.2]
      have : 2 * (k + 1) = 2 + 2 * k := by omega
      rw [this]
      exact (@List.drop_append Char [(b / 16).digitChar, (b % 16).digitChar]
        (unpackBytes rest) (2 * k)).symm

lemma unpackBytes_take (bs : List Nat) (k : Nat)
    (hv : ∀ b ∈ bs, b / 16 ≤ 9 ∧ b % 16 ≤ 9) :
    unpackBytes (bs.take k) = (unpackBytes bs).take (2 * k) := by
  induction k generalizing bs with
  | zero => simp [unpackBytes_nil]
  | succ k ih =>
    match bs with
    | [] => simp [unpackBytes_nil]
    | b :: rest =>
      have hb := hv b (by simp)
      rw [List.take_succ_cons, unpackBytes_cons, unpackBytes_cons,
        ih rest (fun x hx => hv x (by simp [hx])), unpackByte_valid hb.1 hb.2]
      have : 2 * (k + 1) = 2 + 2 * k := by omega
      rw [this]
      exact (@List.take_append Char [(b / 16).digitChar, (b % 16).digitChar]
        (unpackBytes rest) (2 * k)).symm

lemma packDigits_valid (d : List Char) (hd : d.all isAsciiDigit = true) :
    ∀ b ∈ packDigits d, b / 16 ≤ 9 ∧ b % 16 ≤ 9 := by
  induction d using packDigits.induct with
  | case1 => simp [packDigits]
  | case2 c =>
    have hc : isAsciiDigit c = true := by simpa using hd
    have := digitVal_le_nine hc
    simp only [packDigits, List.mem_singleton]
    rintro b rfl
    omega
  | case3 c1 c2 rest ih =>
    simp only [List.all_cons, Bool.and_eq_true] at hd
    have h1 := digitVal_le_nine hd.1
    have h2 := digitVal_le_nine hd.2.1
    simp only [packDigits, List.mem_cons]
    rintro b (rfl | hb)
    · omega
    · exact ih hd.2.2 b hb

lemma packDigits_length (d : List Char) : (packDigits d).length = (d.length + 1) / 2 := by
  induction d using packDigits.induct with
  | case1 => rfl
  | case2 c => simp [packDigits]
  | case3 c1 c2 rest ih =>
    simp [packDigits, ih]
    omega

lemma unpack_pack (d : List Char) (hd : d.all isAsciiDigit = true) :
    unpackBytes (packDigits d) =
      d ++ (if d.length % 2 = 0 then [] else ['0']) := by
  induction d using packDigits.induct with
  | case1 => rfl
  | case2 c =>
    have hc : isAsciiDigit c = true := by simpa using hd
    have hle := digitVal_le_nine hc
    have e1 : digitVal c * 16 / 16 = digitVal c := by omega
    have e2 : digitVal c * 16 % 16 = 0 := by omega
    show unpackBytes [digitVal c * 16] = _
    rw [unpackBytes_cons, unpackBytes_nil,
      unpackByte_valid (by omega) (by omega), e1, e2, digitChar_digitVal hc]
    simp [show Nat.digitChar 0 = '0' from rfl]
  | case3 c1 c2 rest ih =>
    simp only [List.all_cons, Bool.and_eq_true] at hd
    have h1 := digitVal_le_nine hd.1
    have h2 := digitVal_le_nine hd.2.1
    have e1 : (digitVal c1 * 16 + digitVal c2) / 16 = digitVal c1 := by omega
    have e2 : (digitVal c1 * 16 + digitVal c2) % 16 = digitVal c2 := by omega
    show unpackBytes ((digitVal c1 * 16 + digitVal c2) :: packDigits rest) = _
    rw [unpackBytes_cons, unpackByte_valid (by omega) (by omega), e1, e2,
      digitChar_digitVal hd.1, digitChar_digitVal hd.2.1, ih hd.2.2]
    have hmod : (c1 :: c2 :: rest).length % 2 = rest.length % 2 := by
      simp
      omega
    rw [hmod]
    simp

lemma unpack_replicate_zero (k : Nat) :
    unpackBytes (List.replicate k 0) = List.replicate (2 * k) '0' := by
  induction k with
  | zero => rfl
  | succ k ih =>
    rw [List.replicate_succ, unpackBytes_cons, ih,
      show unpackByte 0 = ['0', '0'] from rfl,
      show 2 * (k + 1) = 2 * k + 1 + 1 from by omega,
      List.replicate_succ, List.replicate_succ]
    rfl

lemma get_eq_slice (file : List Nat) (hv : ∀ b ∈ file, b / 16 ≤ 9 ∧ b % 16 ≤ 9)
    (s l : Nat) (hl : 1 ≤ l) (hsl : s + l ≤ 2 * file.length) :
    BinarySource.get file s l = Except.ok (((unpackBytes file).drop s).take l) := by
  have hvd : ∀ b ∈ file.drop (s / 2), b / 16 ≤ 9 ∧ b % 16 ≤ 9 :=
    fun b hb => hv b (List.mem_of_mem_drop hb)
  have hlen2 : (unpackBytes file).length = 2 * file.length := unpackBytes_length file hv
  have hne : (file.drop (s / 2)).take ((s + l + 1) / 2 - s / 2) ≠ [] := by
    apply List.ne_nil_of_length_pos
    rw [List.length_take, List.length_drop]
    omega
  have key : unpackBytes ((file.drop (s / 2)).take ((s + l + 1) / 2 - s / 2)) =
      ((unpackBytes file).drop (2 * (s / 2))).take (2 * ((s + l + 1) / 2 - s / 2)) := by
    rw [unpackBytes_take _ _ hvd, unpackBytes_drop _ _ hv]
  have hres :
      ((unpackBytes ((file.drop (s / 2)).take ((s + l + 1) / 2 - s / 2))).drop (s % 2)).take l
        = ((unpackBytes file).drop s).take l := by
    rw [key, List.drop_take, List.drop_drop, List.take_take,
      show 2 * (s / 2) + s % 2 = s from by omega,
      Nat.min_eq_left (by omega)]
  have hreslen : ((((unpackBytes file).drop s).take l)).length = l := by
    rw [List.length_take, List.length_drop, hlen2]
    omega
  unfold BinarySource.get
  rw [if_neg (by omega : ¬ l < 1)]
  dsimp only
  rw [if_neg hne, hres, if_neg (by omega : ¬ ((((unpackBytes file).drop s).take l)).length ≠ l)]

lemma pyIsdigit_all {d : List Char} (hd : pyIsdigit d = true) : d.all isAsciiDigit = true := by
  simp only [pyIsdigit, Bool.and_eq_true] at hd
  exact hd.2

lemma pyIsdigit_ne_nil {d : List Char} (hd : pyIsdigit d = true) : d ≠ [] := by
  simp only [pyIsdigit, Bool.and_eq_true] at hd
  simpa using hd.1

lemma store_chunk_empty_file (start : Nat) (d : List Char) (hd : pyIsdigit d = true) :
    BinarySource.store_chunk [] start d =
      Except.ok (List.replicate (start / 2) 0 ++ packDigits d) := by
  unfold BinarySource.store_chunk
  rw [if_neg (by simp [hd])]
  unfold writeAt
  simp

lemma packed_file_valid (start : Nat) (d : List Char) (hdall : d.all isAsciiDigit = true) :
    ∀ b ∈ List.replicate (start / 2) 0 ++ packDigits d, b / 16 ≤ 9 ∧ b % 16 ≤ 9 := by
  intro b hb
  rcases List.mem_append.1 hb with h | h
  · have := List.eq_of_mem_replicate h
    subst this
    omega
  · exact packDigits_valid d hdall b h

/-- C5: packed-store round-trip.  After the seek-based
`BinarySource.store_chunk(start, d)` on an empty packed file (even
`start`), `get(s, l)` for any subrange `[s, s + l) ⊆ [start, start +
len(d))` returns exactly the corresponding slice of `d`, through the
byte span `[s // 2, (s + l + 1) // 2)` and the `s % 2` offset. -/
theorem C5_packed_roundtrip (start s l : Nat) (d : List Char)
    (hstart : start % 2 = 0) (hd : pyIsdigit d = true)
    (hs : start ≤ s) (hl : 1 ≤ l) (hsl : s + l ≤ start + d.length) :
    ∃ file, BinarySource.store_chunk [] start d = Except.ok file ∧
      BinarySource.get file s l = Except.ok ((d.drop (s - start)).take l) := by
  have hdall := pyIsdigit_all hd
  obtain ⟨k, rfl⟩ : ∃ k, s = start + k := ⟨s - start, by omega⟩
  refine ⟨List.replicate (start / 2) 0 ++ packDigits d, store_chunk_empty_file start d hd, ?_⟩
  have hlen : (List.replicate (start / 2) 0 ++ packDigits d).length =
      start / 2 + (d.length + 1) / 2 := by
    simp [packDigits_length]
  rw [get_eq_slice _ (packed_file_valid start d hdall) (start + k) l hl (by rw [hlen]; omega)]
  congr 1
  rw [unpackBytes_append, unpack_replicate_zero, unpack_pack d hdall,
    show 2 * (start / 2) = start from by omega,
    show start + k - start = k from by omega,
    show start + k = (List.replicate start '0' : List Char).length + k from by simp,
    List.drop_append,
    List.drop_append_of_le_length (by omega : k ≤ d.length),
    List.take_append_of_le_length (by rw [List.length_drop]; omega)]

lemma packDigits_getLast_odd (d : List Char) (hodd : d.length % 2 = 1)
    (hdall : d.all isAsciiDigit = true) :
    ∃ b, (packDigits d).getLast? = some b ∧ b % 16 = 0 := by
  induction d using packDigits.induct with
  | case1 => simp at hodd
  | case2 c => exact ⟨digitVal c * 16, rfl, by omega⟩
  | case3 c1 c2 rest ih =>
    have hro : rest.length % 2 = 1 := by
      simp at hodd
      omega
    have hra : rest.all isAsciiDigit = true := by
      simp only [List.all_cons, Bool.and_eq_true] at hdall
      exact hdall.2.2
    obtain ⟨b, hb1, hb2⟩ := ih hro hra
    refine ⟨b, ?_, hb2⟩
    have hrne : packDigits rest ≠ [] := by
      apply List.ne_nil_of_length_pos
      rw [packDigits_length]
      omega
    match hpr : packDigits rest with
    | [] => exact absurd hpr hrne
    | x :: xs =>
      show (packDigits (c1 :: c2 :: rest)).getLast? = some b
      rw [show packDigits (c1 :: c2 :: rest) =
        (digitVal c1 * 16 + digitVal c2) :: packDigits rest from rfl, hpr]
      rw [List.getLast?_cons_cons, ← hpr, hb1]

/-- C10: storing an odd-length digit string at an even `start` pads the
final packed byte with a zero low nibble, and a later `get` covering
position `start + len(d)` succeeds and reads the padding as the digit
`'0'` — indistinguishable from a genuinely stored zero. -/
theorem C10_odd_length_padding (start : Nat) (d : List Char)
    (hstart : start % 2 = 0) (hd : pyIsdigit d = true) (hodd : d.length % 2 = 1) :
    ∃ file, BinarySource.store_chunk [] start d = Except.ok file ∧
      (∃ b, file.getLast? = some b ∧ b % 16 = 0) ∧
      BinarySource.get file (start + d.length) 1 = Except.ok ['0'] := by
  have hdall := pyIsdigit_all hd
  have hdne := pyIsdigit_ne_nil hd
  refine ⟨List.replicate (start / 2) 0 ++ packDigits d,
    store_chunk_empty_file start d hd, ?_, ?_⟩
  · obtain ⟨b, hb1, hb2⟩ := packDigits_getLast_odd d hodd hdall
    refine ⟨b, ?_, hb2⟩
    rw [List.getLast?_append, hb1]
    rfl
  · have hlen : (List.replicate (start / 2) 0 ++ packDigits d).length =
        start / 2 + (d.length + 1) / 2 := by
      simp [packDigits_length]
    have hdpos : 1 ≤ d.length := List.length_pos.2 hdne
    rw [get_eq_slice _ (packed_file_valid start d hdall) (start + d.length) 1 (by omega)
      (by rw [hlen]; omega)]
    rw [unpackBytes_append, unpack_replicate_zero, unpack_pack d hdall,
      show 2 * (start / 2) = start from by omega,
      if_neg (by omega : ¬ d.length % 2 = 0)]
    have e2 : (List.replicate start '0' : List Char).length + d.length = start + d.length := by
      simp
    rw [← e2, List.drop_append]
    have e3 : d.length = d.length + 0 := by omega
    rw [e3, List.drop_append]
    rfl

/-- C5 witness: `store_chunk(0, "0123456789")` on an empty file, then
`get(4, 4) = "4567"`. -/
theorem C5_witness :
    ∃ file,
      BinarySource.store_chunk [] 0 ['0', '1', '2', '3', '4', '5', '6', '7', '8', '9'] =
        Except.ok file ∧
      BinarySource.get file 4 4 = Except.ok ['4', '5', '6', '7'] := by
  have h := C5_packed_roundtrip 0 4 4 ['0', '1', '2', '3', '4', '5', '6', '7', '8', '9']
    (by decide) (by decide) (by decide) (by decide) (by decide)
  simpa using h

/-- C10 witness: storing `"123"` at 0 gives bytes `0x12 0x30`; the last
byte has a zero low nibble and `get(3, 1)` reads `'0'`. -/
theorem C10_witness :
    ∃ file, BinarySource.store_chunk [] 0 ['1', '2', '3'] = Except.ok file ∧
      (∃ b, file.getLast? = some b ∧ b % 16 = 0) ∧
      BinarySource.get file 3 1 = Except.ok ['0'] := by
  have h := C10_odd_length_padding 0 ['1', '2', '3'] (by decide) (by decide) (by decide)
  simpa using h

lemma writeAt_at_end (file data : List Nat) : writeAt file file.length data = file ++ data := by
  unfold writeAt
  simp [List.drop_eq_nil_of_le]

lemma buildSeek_cons (file : List Nat) (pos : Nat) (d : List Char) (ds : List (List Char)) :
    buildSeek file pos (d :: ds) =
      match BinarySource.store_chunk file pos d with
      | .ok f => buildSeek f (pos + d.length) ds
      | .error e => .error e := by
  have hb : buildSeek file pos (d :: ds) =
      Except.bind (BinarySource.store_chunk file pos d)
        (fun f => buildSeek f (pos + d.length) ds) := rfl
  rw [hb]
  cases BinarySource.store_chunk file pos d <;> rfl

lemma buildSeek_eq_append (chunkSize : Nat) (hcs : chunkSize % 2 = 0) :
    ∀ (ds : List (List Char)) (file : List Nat) (pos : Nat),
      pos % 2 = 0 → file.length = pos / 2 →
      (∀ d ∈ ds.dropLast, d.length = chunkSize) →
      (∀ d ∈ ds, pyIsdigit d = true) →
      buildSeek file pos ds = Except.ok (buildAppend file pos ds) := by
  intro ds
  induction ds with
  | nil =>
    intro file pos _ _ _ _
    rfl
  | cons d rest ih =>
    intro file pos hpos hflen hlen hdig
    have hd : pyIsdigit d = true := hdig d (by simp)
    have hstep : BinarySource.store_chunk file pos d = Except.ok (file ++ packDigits d) := by
      unfold BinarySource.store_chunk
      rw [if_neg (by simp [hd]), show pos / 2 = file.length from hflen.symm]
      show Except.ok (writeAt file file.length (packDigits d)) = _
      rw [writeAt_at_end]
    rw [buildSeek_cons, hstep]
    show buildSeek (file ++ packDigits d) (pos + d.length) rest =
      Except.ok (buildAppend (file ++ packDigits d) (pos + d.length) rest)
    cases rest with
    | nil => rfl
    | cons r rs =>
      have hdc : d.length = chunkSize := hlen d (by simp)
      refine ih (file ++ packDigits d) (pos + d.length) (by omega) ?_ ?_ ?_
      · rw [List.length_append, packDigits_length, hflen, hdc]
        omega
      · intro x hx
        apply hlen x
        rw [List.dropLast_cons₂]
        exact List.mem_cons_of_mem d hx
      · intro x hx
        exact hdig x (List.mem_cons_of_mem d hx)

/-- C9: for a build that writes digit chunks strictly left to right from
position 0 at stride `chunk_size` (even; every chunk but the last has
exactly `chunk_size` digits), the seek-based packed write
(`BinarySource.store_chunk` in binary_source.py) and the append-based
variant (`store_chunk` in base_storage.py) produce byte-identical packed
files. -/
theorem C9_seek_append_equivalent (chunkSize : Nat) (ds : List (List Char))
    (hcs : chunkSize % 2 = 0)
    (hlen : ∀ d ∈ ds.dropLast, d.length = chunkSize)
    (hdig : ∀ d ∈ ds, pyIsdigit d = true) :
    buildSeek [] 0 ds = Except.ok (buildAppend [] 0 ds) :=
  buildSeek_eq_append chunkSize hcs ds [] 0 rfl rfl hlen hdig

/-- C9 witness: a two-chunk build at chunk size 2 (`"12"` then `"345"`)
gives the same packed bytes `0x12 0x34 0x50` through both variants. -/
theorem C9_witness :
    buildSeek [] 0 [['1', '2'], ['3', '4', '5']] =
      Except.ok (buildAppend [] 0 [['1', '2'], ['3', '4', '5']]) ∧
    buildAppend [] 0 [['1', '2'], ['3', '4', '5']] = [18, 52, 80] :=
  ⟨C9_seek_append_equivalent 2 [['1', '2'], ['3', '4', '5']] (by decide)
    (by decide) (by decide), by rfl⟩

/-- C1 counterexample: in `managerC1` a persisted chunk's digits were
overwritten without updating its checksum, yet
`get_digits(0, 5, force_verify=True)` does not raise `CorruptionError`:
the error is caught by the `except (ValueError, CorruptionError)` in
`get_digits` and the call falls back to the Canonical Source, returning
the file digits `"12345"`. -/
theorem C1_counterexample :
    (∀ c ∈ managerC1.db, md5hex c.digits ≠ c.checksum) ∧
    Manager.get_digits managerC1 0 5 true = Except.ok ['1', '2', '3', '4', '5'] :=
  ⟨by decide, by rfl⟩

lemma tryChunkPath_of_sqlite_error {m : Manager} {start length : Nat} {e : PyErr}
    (hsql : SQLiteSource.get m.db start length = Except.error e) (v : Bool) :
    Manager.tryChunkPath m start length v = Except.error e := by
  unfold Manager.tryChunkPath
  rw [hsql]

/-- C1 (amended): every `force_verify` verification failure on the
chunk-store path raises `CorruptionError` inside the inner `try` of
`get_digits` — whether the chunk store itself detects a checksum
mismatch (part 1), the chunk-store read succeeds but differs from the
cleaned Canonical Source range (part 2), or it agrees with the file but
differs from the Packed Store result when packed data exists (part 3) —
and in every such case `get_digits` catches the `CorruptionError` in
its `except (ValueError, CorruptionError)` handler and falls back to
the Canonical Source, returning the cleaned file range (part 4); the
caller never receives the `CorruptionError`. -/
theorem C1_corruption_swallowed (m : Manager) (start length : Nat)
    (hcache : m.has_sqlite_cache = true) :
    (SQLiteSource.get m.db start length = Except.error PyErr.corruptionError →
      Manager.tryChunkPath m start length true = Except.error PyErr.corruptionError) ∧
    (∀ result file_result,
      SQLiteSource.get m.db start length = Except.ok result →
      Manager.getCleanedDigitsFromFile m start length = Except.ok file_result →
      result ≠ file_result →
      Manager.tryChunkPath m start length true = Except.error PyErr.corruptionError) ∧
    (∀ result bf binary_result,
      SQLiteSource.get m.db start length = Except.ok result →
      Manager.getCleanedDigitsFromFile m start length = Except.ok result →
      m.binFile = some bf → 0 < bf.length →
      BinarySource.get bf start length = Except.ok binary_result →
      result ≠ binary_result →
      Manager.tryChunkPath m start length true = Except.error PyErr.corruptionError) ∧
    (Manager.tryChunkPath m start length true = Except.error PyErr.corruptionError →
      Manager.get_digits m start length true =
        Manager.getCleanedDigitsFromFile m start length) := by
  refine ⟨fun hsq => tryChunkPath_of_sqlite_error hsq true, ?_, ?_, ?_⟩
  · intro result file_result hsq hgc hne
    unfold Manager.tryChunkPath
    rw [hsq]
    dsimp only
    rw [if_pos rfl, hgc]
    dsimp only
    rw [if_pos hne]
  · intro result bf binary_result hsq hgc hbf hbflen hbin hne
    have hhbc : m.has_binary_cache = true := by
      unfold Manager.has_binary_cache
      rw [hbf]
      exact decide_eq_true hbflen
    unfold Manager.tryChunkPath
    rw [hsq]
    dsimp only
    rw [if_pos rfl, hgc]
    dsimp only
    rw [if_neg (fun h => h rfl), if_pos hhbc, hbf]
    dsimp only
    rw [hbin]
    dsimp only
    rw [if_pos hne]
  · intro htry
    unfold Manager.get_digits
    dsimp only
    rw [Bool.true_or, htry]
    simp only [hcache, if_true]
    cases h : Manager.getCleanedDigitsFromFile m start length <;> simp [h]

/-- C1 witness: the amended behavior at two concrete states — the
compare-mismatch state `managerC1b` (chunk read succeeds with a valid
checksum but its digits differ from the cleaned file range) and the
tampered-checksum state `managerC1`; in both, `get_digits` with
`force_verify` returns the cleaned file range instead of raising. -/
theorem C1_witness :
    Manager.tryChunkPath managerC1b 0 5 true = Except.error PyErr.corruptionError ∧
    Manager.get_digits managerC1b 0 5 true =
      Manager.getCleanedDigitsFromFile managerC1b 0 5 ∧
    Manager.get_digits managerC1 0 5 true =
      Manager.getCleanedDigitsFromFile managerC1 0 5 := by
  have hb := C1_corruption_swallowed managerC1b 0 5 (by rfl)
  have ha := C1_corruption_swallowed managerC1 0 5 (by rfl)
  have h1 := hb.2.1 ['9', '9', '9', '9', '9'] ['1', '2', '3', '4', '5']
    (by rfl) (by rfl) (by decide)
  exact ⟨h1, hb.2.2.2 h1, ha.2.2.2 (ha.1 (by rfl))⟩

lemma cleanChars_of_digits {s : List Char} (h : s.all isAsciiDigit = true) :
    cleanChars s = s := by
  unfold cleanChars
  apply List.filter_eq_self.2
  intro c hc
  have hcd : isAsciiDigit c = true := List.all_eq_true.1 h c hc
  simp only [isAsciiDigit, Bool.and_eq_true, decide_eq_true_eq] at hcd
  have h1 : c ≠ '.' := by
    rintro rfl
    revert hcd
    decide
  have h2 : c ≠ ' ' := by
    rintro rfl
    revert hcd
    decide
  have h3 : c ≠ '\n' := by
    rintro rfl
    revert hcd
    decide
  have h4 : c ≠ '\r' := by
    rintro rfl
    revert hcd
    decide
  simp [h1, h2, h3, h4]

lemma all_take_drop {p : Char → Bool} {l : List Char} (h : l.all p = true) (a b : Nat) :
    ((l.drop a).take b).all p = true := by
  rw [List.all_eq_true] at h ⊢
  intro x hx
  exact h x (List.mem_of_mem_drop (List.mem_of_mem_take hx))

lemma getCleaned_eq (m : Manager) (start length : Nat)
    (hdig : m.content.all isAsciiDigit = true)
    (hlen : 1 ≤ length) (hrange : start + length ≤ m.content.length) :
    Manager.getCleanedDigitsFromFile m start length =
      Except.ok ((m.content.drop start).take length) := by
  have hc : (m.content.drop start).take (length + 10) ≠ [] := by
    apply List.ne_nil_of_length_pos
    rw [List.length_take, List.length_drop]
    omega
  unfold Manager.getCleanedDigitsFromFile FileSource.get
  dsimp only
  rw [if_neg (by omega : ¬ length + 10 < 1), if_neg (fun hand => hc hand.1)]
  dsimp only
  rw [cleanChars_of_digits (all_take_drop hdig start (length + 10)),
    List.take_take, Nat.min_eq_left (by omega)]

lemma except_bind_ok {α β : Type} (a : α) (k : α → Except PyErr β) :
    (Except.ok a >>= k : Except PyErr β) = k a := rfl

lemma except_bind_error {α β : Type} (e : PyErr) (k : α → Except PyErr β) :
    ((Except.error e : Except PyErr α) >>= k : Except PyErr β) = Except.error e := rfl

lemma insertByStart_perm (c : Chunk) (l : List Chunk) :
    (SQLiteSource.insertByStart c l).Perm (c :: l) := by
  induction l with
  | nil => exact List.Perm.refl _
  | cons d ds ih =>
    unfold SQLiteSource.insertByStart
    split
    · exact (ih.cons d).trans (List.Perm.swap c d ds)
    · exact List.Perm.refl _

lemma sortByStart_perm (l : List Chunk) : (SQLiteSource.sortByStart l).Perm l := by
  induction l with
  | nil => exact List.Perm.refl _
  | cons d ds ih =>
    exact (insertByStart_perm d (SQLiteSource.sortByStart ds)).trans (ih.cons d)

lemma mem_selectChunks {c : Chunk} {db : List Chunk} {start endPos : Nat}
    (h : c ∈ SQLiteSource.selectChunks db start endPos) : c ∈ db := by
  unfold SQLiteSource.selectChunks at h
  exact List.mem_of_mem_filter ((sortByStart_perm _).mem_iff.1 h)

lemma chunkStep_ok {start endPos : Nat} {acc res : List Char} {c : Chunk}
    (h : SQLiteSource.chunkStep start endPos acc c = Except.ok res)
    (hacc : acc.all isAsciiDigit = true) (hc : c.digits.all isAsciiDigit = true) :
    res.all isAsciiDigit = true := by
  unfold SQLiteSource.chunkStep at h
  dsimp only at h
  split at h
  · simp at h
  · split at h
    · injection h with h2
      subst h2
      rw [List.all_append, hacc, all_take_drop hc]
      rfl
    · injection h with h2
      subst h2
      exact hacc

lemma foldlM_chunkStep_all {start endPos : Nat} (chunks : List Chunk) (acc res : List Char)
    (hacc : acc.all isAsciiDigit = true)
    (hch : ∀ c ∈ chunks, c.digits.all isAsciiDigit = true)
    (h : chunks.foldlM (SQLiteSource.chunkStep start endPos) acc = Except.ok res) :
    res.all isAsciiDigit = true := by
  induction chunks generalizing acc with
  | nil =>
    rw [List.foldlM_nil] at h
    injection h with h2
    subst h2
    exact hacc
  | cons c cs ih =>
    rw [List.foldlM_cons] at h
    cases hs : SQLiteSource.chunkStep start endPos acc c with
    | error e =>
      rw [hs, except_bind_error] at h
      simp at h
    | ok acc' =>
      rw [hs, except_bind_ok] at h
      have hstep := chunkStep_ok hs hacc (hch c (by simp))
      exact ih acc' hstep (fun x hx => hch x (by simp [hx])) h

lemma sqlite_get_ok {db : List Chunk} {start length : Nat} {r : List Char}
    (hch : ∀ c ∈ db, c.digits.all isAsciiDigit = true)
    (h : SQLiteSource.get db start length = Except.ok r) :
    r.length = length ∧ r.all isAsciiDigit = true := by
  unfold SQLiteSource.get at h
  dsimp only at h
  split at h
  · simp at h
  · split at h
    · simp at h
    · rename_i result heq
      split at h
      · simp at h
      · injection h with h2
        subst h2
        refine ⟨by omega, ?_⟩
        exact foldlM_chunkStep_all _ [] result rfl
          (fun c hc => hch c (mem_selectChunks hc)) heq

lemma tryChunkPath_ok {m : Manager} {start length : Nat} {v : Bool} {r : List Char}
    (h : Manager.tryChunkPath m start length v = Except.ok r) :
    SQLiteSource.get m.db start length = Except.ok r := by
  unfold Manager.tryChunkPath at h
  cases hg : SQLiteSource.get m.db start length with
  | error e =>
    rw [hg] at h
    simp at h
  | ok result =>
    rw [hg] at h
    dsimp only at h
    repeat' split at h
    all_goals first
      | exact h
      | simp at h

lemma get_digits_result (m : Manager) (start length : Nat) (fv : Bool) (r : List Char)
    (hr : Manager.get_digits m start length fv = Except.ok r) :
    (Manager.tryChunkPath m start length
        (fv || decide ((m.request_count + 1) % m.verify_every = 0)) = Except.ok r) ∨
    Manager.getCleanedDigitsFromFile m start length = Except.ok r := by
  unfold Manager.get_digits at hr
  dsimp only at hr
  by_cases hcb : m.has_sqlite_cache = true
  · rw [if_pos hcb] at hr
    cases ht : Manager.tryChunkPath m start length
        (fv || decide ((m.request_count + 1) % m.verify_every = 0)) with
    | ok res =>
      rw [ht] at hr
      dsimp only at hr
      left
      exact hr
    | error e =>
      rw [ht] at hr
      right
      cases e <;> dsimp only at hr <;>
        first
          | exact hr
          | (cases hgc : Manager.getCleanedDigitsFromFile m start length with
             | ok res =>
               rw [hgc] at hr
               dsimp only at hr
               exact hr
             | error e2 =>
               rw [hgc] at hr
               dsimp only at hr
               simp at hr)
  · rw [if_neg hcb] at hr
    right
    cases hgc : Manager.getCleanedDigitsFromFile m start length with
    | ok res =>
      rw [hgc] at hr
      dsimp only at hr
      exact hr
    | error e2 =>
      rw [hgc] at hr
      dsimp only at hr
      simp at hr

/-- C2 (amended): over a canonical file consisting solely of ASCII
digits, with every stored chunk's digits ASCII digits, any `get_digits`
call with `start + length ≤ file_size` and `length ≥ 1` that returns a
string returns exactly `length` characters, all in `'0'..'9'` (the
other possibility being an explicit error).  The original claim fails
when the raw file contains formatting characters, because the cleaning
step can leave fewer than `length` characters. -/
theorem C2_exact_length_digits (m : Manager) (start length : Nat) (fv : Bool) (r : List Char)
    (hdig : m.content.all isAsciiDigit = true)
    (hchunks : ∀ c ∈ m.db, c.digits.all isAsciiDigit = true)
    (hlen : 1 ≤ length) (hrange : start + length ≤ m.content.length)
    (hr : Manager.get_digits m start length fv = Except.ok r) :
    r.length = length ∧ r.all isAsciiDigit = true := by
  rcases get_digits_result m start length fv r hr with h | h
  · exact sqlite_get_ok hchunks (tryChunkPath_ok h)
  · rw [getCleaned_eq m start length hdig hlen hrange] at h
    injection h with h2
    subst h2
    constructor
    · rw [List.length_take, List.length_drop]
      omega
    · exact all_take_drop hdig start length

/-- C2 counterexample: over the canonical file `"3.14"` (`file_size =
4`), the in-range request `get_digits(0, 4)` returns the 3-character
string `"314"` — shorter than `length` — because the stripped decimal
point is only compensated by a fixed 10-character over-read and here
the file ends first. -/
theorem C2_counterexample :
    0 + 4 ≤ managerC2.content.length ∧
    Manager.get_digits managerC2 0 4 false = Except.ok ['3', '1', '4'] :=
  ⟨by decide, by rfl⟩

/-- C2 witness: the amended theorem at the pure-digit file `"123"`,
request `get_digits(0, 2)` returning `"12"`. -/
theorem C2_witness :
    Manager.get_digits managerC2w 0 2 false = Except.ok ['1', '2'] ∧
    (['1', '2'] : List Char).length = 2 ∧ (['1', '2'] : List Char).all isAsciiDigit = true := by
  have h := C2_exact_length_digits managerC2w 0 2 false ['1', '2'] (by decide) (by decide)
    (by decide) (by decide) (by rfl)
  exact ⟨by rfl, h.1, h.2⟩

lemma all_drop {p : Char → Bool} {l : List Char} (h : l.all p = true) (a : Nat) :
    (l.drop a).all p = true := by
  rw [List.all_eq_true] at h ⊢
  intro x hx
  exact h x (List.mem_of_mem_drop hx)

/-- C3 counterexample: over the pure-digit canonical file `"1234"`
(`file_size = 4`), the out-of-range request `get_digits(2, 5)` does not
raise any bounds error — it silently returns the truncated 2-character
string `"34"`. -/
theorem C3_counterexample :
    managerC3.content.length < 2 + 5 ∧
    Manager.get_digits managerC3 2 5 false = Except.ok ['3', '4'] :=
  ⟨by decide, by rfl⟩

/-- C3 (amended): `get_digits` performs no bounds check at all.  For a
pure-digit canonical file with no chunk cache, a request with
`start + length > file_size` (and `start` in range) reads whatever the
file holds from `start` on and returns that truncated suffix — strictly
shorter than `length` — instead of an error.  Only `start < 0` and
`length < 1` are rejected, inside `FileSource.get`. -/
theorem C3_no_bounds_check (m : Manager) (start length : Nat) (fv : Bool)
    (hdb : m.db = [])
    (hdig : m.content.all isAsciiDigit = true)
    (hstart : start < m.content.length)
    (hover : m.content.length < start + length) :
    Manager.get_digits m start length fv = Except.ok (m.content.drop start) ∧
    (m.content.drop start).length < length := by
  have hraw : (m.content.drop start).take (length + 10) = m.content.drop start :=
    List.take_of_length_le (by rw [List.length_drop]; omega)
  have hgc : Manager.getCleanedDigitsFromFile m start length =
      Except.ok (m.content.drop start) := by
    unfold Manager.getCleanedDigitsFromFile FileSource.get
    dsimp only
    rw [hraw, if_neg (by omega : ¬ length + 10 < 1),
      if_neg (fun hand => by
        have := hand.1
        have hpos : (m.content.drop start).length > 0 := by
          rw [List.length_drop]
          omega
        rw [this] at hpos
        simp at hpos)]
    dsimp only
    rw [cleanChars_of_digits (all_drop hdig start),
      List.take_of_length_le (by rw [List.length_drop]; omega)]
  have hcache : m.has_sqlite_cache = false := by
    unfold Manager.has_sqlite_cache SQLiteSource.has_data
    rw [hdb]
    rfl
  constructor
  · unfold Manager.get_digits
    dsimp only
    rw [if_neg (by rw [hcache]; simp : ¬ m.has_sqlite_cache = true), hgc]
  · rw [List.length_drop]
    omega

/-- C3 witness: the amended behavior at `"1234"` with `get_digits(1, 5)`
returning the 3-character suffix. -/
theorem C3_witness :
    Manager.get_digits managerC3 1 5 false = Except.ok (managerC3.content.drop 1) ∧
    (managerC3.content.drop 1).length < 5 :=
  C3_no_bounds_check managerC3 1 5 false (by rfl) (by decide) (by decide) (by decide)

lemma chunkStep_ok_len {start endPos : Nat} (acc : List Char) (c : Chunk)
    (hwf : c.end_position = c.start_position + c.digits.length)
    (hck : c.checksum = md5hex c.digits) :
    ∃ piece, SQLiteSource.chunkStep start endPos acc c = Except.ok (acc ++ piece) ∧
      piece.length = overlapLen start endPos c := by
  unfold SQLiteSource.chunkStep
  rw [if_neg (fun hne => hne hck.symm)]
  dsimp only
  split
  · refine ⟨_, rfl, ?_⟩
    rw [List.length_take, List.length_drop]
    unfold overlapLen
    omega
  · refine ⟨[], by rw [List.append_nil], ?_⟩
    unfold overlapLen
    simp only [List.length_nil]
    omega

lemma foldlM_chunkStep_len {start endPos : Nat} (chunks : List Chunk) (acc : List Char)
    (hwf : ∀ c ∈ chunks, c.end_position = c.start_position + c.digits.length)
    (hck : ∀ c ∈ chunks, c.checksum = md5hex c.digits) :
    ∃ res, chunks.foldlM (SQLiteSource.chunkStep start endPos) acc = Except.ok res ∧
      res.length = acc.length + (chunks.map (overlapLen start endPos)).sum := by
  induction chunks generalizing acc with
  | nil => exact ⟨acc, rfl, by simp⟩
  | cons c cs ih =>
    obtain ⟨piece, hp, hplen⟩ := chunkStep_ok_len acc c (hwf c (by simp)) (hck c (by simp))
    obtain ⟨res, hres, hreslen⟩ := ih (acc ++ piece)
      (fun x hx => hwf x (by simp [hx])) (fun x hx => hck x (by simp [hx]))
    refine ⟨res, ?_, ?_⟩
    · rw [List.foldlM_cons, hp, except_bind_ok]
      exact hres
    · rw [hreslen, List.length_append, hplen]
      simp
      omega

lemma mem_foldr_union (q : Nat) (cs : List Chunk) (start endPos : Nat) :
    q ∈ cs.foldr (fun c s => overlapSet start endPos c ∪ s) ∅ ↔
      ∃ c ∈ cs, q ∈ overlapSet start endPos c := by
  induction cs with
  | nil => simp
  | cons c rest ih => simp [ih]

lemma sum_overlapLen_eq_card_union (start endPos : Nat) (chunks : List Chunk)
    (hdisj : chunks.Pairwise (fun a b =>
      a.end_position ≤ b.start_position ∨ b.end_position ≤ a.start_position)) :
    (chunks.map (overlapLen start endPos)).sum =
      (chunks.foldr (fun c s => overlapSet start endPos c ∪ s) ∅).card := by
  induction chunks with
  | nil => simp
  | cons c cs ih =>
    rcases List.pairwise_cons.1 hdisj with ⟨hhead, htail⟩
    have hdis : Disjoint (overlapSet start endPos c)
        (cs.foldr (fun c s => overlapSet start endPos c ∪ s) ∅) := by
      rw [Finset.disjoint_left]
      intro q hq hq2
      rcases (mem_foldr_union q cs start endPos).1 hq2 with ⟨c2, hc2, hq3⟩
      rcases hhead c2 hc2 with h | h
      · unfold overlapSet at hq hq3
        rw [Finset.mem_Ico] at hq hq3
        omega
      · unfold overlapSet at hq hq3
        rw [Finset.mem_Ico] at hq hq3
        omega
    rw [List.map_cons, List.sum_cons, List.foldr_cons,
      Finset.card_union_of_disjoint hdis, ih htail]
    unfold overlapLen overlapSet
    rw [Nat.card_Ico]

lemma pairwise_selectChunks {db : List Chunk} {start endPos : Nat}
    (hdisj : db.Pairwise (fun a b =>
      a.end_position ≤ b.start_position ∨ b.end_position ≤ a.start_position)) :
    (SQLiteSource.selectChunks db start endPos).Pairwise (fun a b =>
      a.end_position ≤ b.start_position ∨ b.end_position ≤ a.start_position) := by
  unfold SQLiteSource.selectChunks
  refine ((sortByStart_perm _).pairwise_iff (fun hab => hab.symm)).2 ?_
  exact hdisj.filter _

/-- C6 (amended): provided the stored chunks are pairwise
non-overlapping (as the fixed-stride build produces them), with
consistent lengths and valid checksums, any range `[start,
start+length)` containing a position `p` covered by no chunk makes
`SQLiteSource.get` raise the data-availability `ValueError` — never a
padded or short result.  Without the disjointness assumption the claim
fails: two chunks covering the same interval can make the concatenated
length equal `length` despite a gap. -/
theorem C6_gap_raises (db : List Chunk) (start length p : Nat)
    (hwf : ∀ c ∈ db, c.end_position = c.start_position + c.digits.length)
    (hck : ∀ c ∈ db, c.checksum = md5hex c.digits)
    (hdisj : db.Pairwise (fun a b =>
      a.end_position ≤ b.start_position ∨ b.end_position ≤ a.start_position))
    (hp1 : start ≤ p) (hp2 : p < start + length)
    (hgap : ∀ c ∈ db, ¬(c.start_position ≤ p ∧ p < c.end_position)) :
    SQLiteSource.get db start length = Except.error PyErr.valueError := by
  unfold SQLiteSource.get
  dsimp only
  by_cases hempty : SQLiteSource.selectChunks db start (start + length) = []
  · rw [if_pos hempty]
  · rw [if_neg hempty]
    obtain ⟨res, hres, hreslen⟩ := foldlM_chunkStep_len
      (SQLiteSource.selectChunks db start (start + length)) []
      (fun c hc => hwf c (mem_selectChunks hc))
      (fun c hc => hck c (mem_selectChunks hc))
    rw [hres]
    dsimp only
    have hsum := sum_overlapLen_eq_card_union start (start + length)
      (SQLiteSource.selectChunks db start (start + length)) (pairwise_selectChunks hdisj)
    have hsubset : (SQLiteSource.selectChunks db start (start + length)).foldr
        (fun c s => overlapSet start (start + length) c ∪ s) ∅ ⊆
        (Finset.Ico start (start + length)).erase p := by
      intro q hq
      rcases (mem_foldr_union q _ start (start + length)).1 hq with ⟨c, hc, hq2⟩
      unfold overlapSet at hq2
      rw [Finset.mem_Ico] at hq2
      rw [Finset.mem_erase, Finset.mem_Ico]
      have hcdb := mem_selectChunks hc
      have hnc := hgap c hcdb
      constructor
      · intro hqp
        subst hqp
        exact hnc ⟨by omega, by omega⟩
      · omega
    have hcard : res.length < length := by
      have h1 := Finset.card_le_card hsubset
      rw [Finset.card_erase_of_mem (Finset.mem_Ico.2 ⟨hp1, hp2⟩), Nat.card_Ico] at h1
      rw [hreslen, hsum]
      simp only [List.length_nil, Nat.zero_add]
      omega
    rw [if_pos (by omega)]

/-- C6 counterexample: two distinct persisted chunks both covering
`[0, 5)` (valid checksums) leave `[5, 10)` — e.g. position 7 —
uncovered, yet `SQLiteSource.get(0, 10)` returns a 10-character string
(`"0000011111"`) instead of raising a data-availability error: the
`len(result) != length` check is fooled by the double-counted
overlap. -/
theorem C6_counterexample :
    (∀ c ∈ dbC6, ¬(c.start_position ≤ 7 ∧ 7 < c.end_position)) ∧ 7 < 0 + 10 ∧
    SQLiteSource.get dbC6 0 10 =
      Except.ok ['0', '0', '0', '0', '0', '1', '1', '1', '1', '1'] :=
  ⟨by decide, by decide, by rfl⟩

/-- C6 witness: the amended theorem at a single chunk covering `[0, 5)`
with the request `[0, 10)` (gap at 7): `ValueError` is raised. -/
theorem C6_witness :
    SQLiteSource.get dbC6w 0 10 = Except.error PyErr.valueError :=
  C6_gap_raises dbC6w 0 10 7 (by decide) (by decide) (by decide) (by decide)
    (by decide) (by decide)

lemma get_digits_nocache (m : Manager) (start length : Nat) (fv : Bool)
    (hdb : m.db = []) (hdig : m.content.all isAsciiDigit = true)
    (hlen : 1 ≤ length) (hrange : start + length ≤ m.content.length) :
    Manager.get_digits m start length fv =
      Except.ok ((m.content.drop start).take length) := by
  have hgc := getCleaned_eq m start length hdig hlen hrange
  have hcache : m.has_sqlite_cache = false := by
    unfold Manager.has_sqlite_cache SQLiteSource.has_data
    rw [hdb]
    rfl
  unfold Manager.get_digits
  dsimp only
  rw [if_neg (by rw [hcache]; simp : ¬ m.has_sqlite_cache = true), hgc]

lemma scanWindow_spec (chunk sequence : List Char) (base max_results : Nat) :
    ∀ n pos positions, chunk.length + 1 - sequence.length - pos = n →
      positions.length < max_results →
      Manager.scanWindow chunk sequence base max_results positions pos =
        positions ++ ((matchOffsets chunk sequence pos).map (base + ·)).take
          (max_results - positions.length) := by
  intro n
  induction n with
  | zero =>
    intro pos positions hn _
    unfold Manager.scanWindow matchOffsets
    rw [if_neg (by omega), hn]
    simp
  | succ n ih =>
    intro pos positions hn hlt
    have hpos : pos < chunk.length + 1 - sequence.length := by omega
    have hoff : matchOffsets chunk sequence pos =
        (pos :: List.range' (pos + 1) n).filter
          (fun q => decide ((chunk.drop q).take sequence.length = sequence)) := by
      unfold matchOffsets
      rw [hn, show n + 1 = n + 1 from rfl, List.range'_succ pos n 1]
    have hoff2 : matchOffsets chunk sequence (pos + 1) =
        (List.range' (pos + 1) n).filter
          (fun q => decide ((chunk.drop q).take sequence.length = sequence)) := by
      unfold matchOffsets
      rw [show chunk.length + 1 - sequence.length - (pos + 1) = n from by omega]
    unfold Manager.scanWindow
    rw [if_pos hpos]
    by_cases hm : (chunk.drop pos).take sequence.length = sequence
    · rw [if_pos hm, hoff, List.filter_cons_of_pos (by simpa using hm), List.map_cons]
      by_cases hfull : max_results ≤ (positions ++ [base + pos]).length
      · rw [if_pos hfull]
        have : max_results - positions.length = 1 := by
          rw [List.length_append] at hfull
          simp at hfull
          omega
        rw [this, List.take_succ_cons, List.take_zero]
      · rw [if_neg hfull]
        have hlt2 : (positions ++ [base + pos]).length < max_results := by omega
        rw [ih (pos + 1) (positions ++ [base + pos]) (by omega) hlt2, hoff2]
        have : max_results - positions.length =
            (max_results - (positions ++ [base + pos]).length) + 1 := by
          rw [List.length_append]
          simp
          rw [List.length_append] at hfull
          simp at hfull
          omega
        rw [this, List.take_succ_cons, List.append_assoc]
        rfl
    · rw [if_neg hm, hoff, List.filter_cons_of_neg (by simpa using hm),
        ih (pos + 1) positions (by omega) hlt, hoff2]

lemma matchOffsets_map (content seq : List Char) (c csize : Nat)
    (hcs : c + csize ≤ content.length) (hL : seq.length ≤ csize) :
    (matchOffsets ((content.drop c).take csize) seq 0).map (c + ·) =
      (List.range' c (csize + 1 - seq.length)).filter
        (fun p => decide ((content.drop p).take seq.length = seq)) := by
  have hchlen : ((content.drop c).take csize).length = csize := by
    rw [List.length_take, List.length_drop]
    omega
  unfold matchOffsets
  rw [hchlen, Nat.sub_zero, List.range'_eq_map_range c (csize + 1 - seq.length),
    List.filter_map,
    show List.range' 0 (csize + 1 - seq.length) =
      List.range (csize + 1 - seq.length) from (List.range_eq_range' _).symm]
  congr 1
  apply List.filter_congr
  intro q hq
  rw [List.mem_range] at hq
  have key : (((content.drop c).take csize).drop q).take seq.length =
      (content.drop (c + q)).take seq.length := by
    rw [List.drop_take, List.take_take, Nat.min_eq_left (by omega), List.drop_drop]
  simp only [Function.comp_apply]
  rw [key]

lemma occList_nil (content seq : List Char) (c : Nat)
    (h : content.length + 1 - seq.length ≤ c) :
    occList content seq c = [] := by
  unfold occList
  rw [List.filter_eq_nil_iff]
  intro p hp
  rw [List.mem_range] at hp
  simp only [decide_eq_true_eq]
  rintro ⟨h1, _⟩
  omega

lemma filter_range'_split (P : Nat → Bool) (k m : Nat) :
    (List.range' 0 (k + m)).filter P =
      (List.range' 0 k).filter P ++ (List.range' k m).filter P := by
  rw [show k + m = m + k from Nat.add_comm k m, ← List.range'_append_1 0 k m,
    Nat.zero_add, List.filter_append]

lemma occList_as_filter (content seq : List Char) (c : Nat) :
    occList content seq c =
      (List.range' 0 (content.length + 1 - seq.length)).filter
        (fun p => decide (c ≤ p ∧ (content.drop p).take seq.length = seq)) := by
  unfold occList
  rw [List.range_eq_range']

lemma occList_split_gen (content seq : List Char) (c W : Nat)
    (hc : c < content.length)
    (hLc : seq.length ≤ min W (content.length - c)) :
    occList content seq c =
      ((matchOffsets ((content.drop c).take (min W (content.length - c))) seq 0).map
        (c + ·)) ++
      occList content seq (c + (W + 1 - seq.length)) := by
  have hLW : seq.length ≤ W := by omega
  have hLN : seq.length ≤ content.length - c := by omega
  rw [matchOffsets_map content seq c (min W (content.length - c)) (by omega) hLc,
    occList_as_filter content seq c,
    show content.length + 1 - seq.length =
      (c + (min W (content.length - c) + 1 - seq.length)) +
        ((content.length + 1 - seq.length) -
          (c + (min W (content.length - c) + 1 - seq.length))) from by omega,
    filter_range'_split, filter_range'_split]
  have h0 : (List.range' 0 c).filter
      (fun p => decide (c ≤ p ∧ (content.drop p).take seq.length = seq)) = [] := by
    rw [List.filter_eq_nil_iff]
    intro p hp
    rw [List.mem_range'_1] at hp
    simp only [decide_eq_true_eq]
    rintro ⟨h1, _⟩
    omega
  rw [h0, List.nil_append]
  have hcongr : (List.range' c (min W (content.length - c) + 1 - seq.length)).filter
      (fun p => decide (c ≤ p ∧ (content.drop p).take seq.length = seq)) =
      (List.range' c (min W (content.length - c) + 1 - seq.length)).filter
      (fun p => decide ((content.drop p).take seq.length = seq)) := by
    apply List.filter_congr
    intro p hp
    rw [List.mem_range'_1] at hp
    rw [decide_eq_decide]
    exact ⟨fun h => h.2, fun h => ⟨hp.1, h⟩⟩
  rw [hcongr]
  congr 1
  by_cases hcase : W ≤ content.length - c
  · have hteq : c + (min W (content.length - c) + 1 - seq.length) =
        c + (W + 1 - seq.length) := by omega
    rw [hteq]
    conv_rhs =>
      rw [occList_as_filter content seq (c + (W + 1 - seq.length)),
        show content.length + 1 - seq.length =
          (c + (W + 1 - seq.length)) +
            ((content.length + 1 - seq.length) - (c + (W + 1 - seq.length))) from by omega,
        filter_range'_split]
    have h0' : (List.range' 0 (c + (W + 1 - seq.length))).filter
        (fun p => decide (c + (W + 1 - seq.length) ≤ p ∧
          (content.drop p).take seq.length = seq)) = [] := by
      rw [List.filter_eq_nil_iff]
      intro p hp
      rw [List.mem_range'_1] at hp
      simp only [decide_eq_true_eq]
      rintro ⟨h1, _⟩
      omega
    rw [h0', List.nil_append]
    apply List.filter_congr
    intro p hp
    rw [List.mem_range'_1] at hp
    rw [decide_eq_decide]
    constructor
    · rintro ⟨_, hm⟩
      exact ⟨hp.1, hm⟩
    · rintro ⟨_, hm⟩
      exact ⟨by omega, hm⟩
  · rw [show (content.length + 1 - seq.length) -
        (c + (min W (content.length - c) + 1 - seq.length)) = 0 from by omega,
      List.range'_zero, List.filter_nil,
      occList_nil content seq (c + (W + 1 - seq.length)) (by omega)]

lemma searchLoop_spec (m : Manager) (seq : List Char) (max_results : Nat)
    (hdb : m.db = []) (hdig : m.content.all isAsciiDigit = true)
    (hL1 : 1 ≤ seq.length) (hLW : seq.length ≤ Manager.searchChunkSize) :
    ∀ fuel c positions, m.content.length ≤ c + fuel →
      positions.length ≤ max_results →
      Manager.searchLoop m seq max_results fuel c positions =
        Except.ok (positions ++
          (occList m.content seq c).take (max_results - positions.length)) := by
  have hfs : m.get_file_size = m.content.length := rfl
  intro fuel
  induction fuel with
  | zero =>
    intro c positions hfuel _
    rw [occList_nil m.content seq c (by omega), List.take_nil, List.append_nil]
    rfl
  | succ fuel ih =>
    intro c positions hfuel hlen
    unfold Manager.searchLoop
    rw [hfs]
    dsimp only
    by_cases hrun : positions.length < max_results ∧ c < m.content.length
    · rw [if_pos hrun]
      by_cases hsmall :
          min Manager.searchChunkSize (m.content.length - c) < seq.length
      · rw [if_pos hsmall]
        rw [occList_nil m.content seq c (by omega), List.take_nil, List.append_nil]
      · rw [if_neg hsmall]
        have hchunk := get_digits_nocache m c
          (min Manager.searchChunkSize (m.content.length - c)) false hdb hdig
          (by omega) (by omega)
        rw [hchunk]
        dsimp only
        rw [scanWindow_spec
          ((m.content.drop c).take (min Manager.searchChunkSize (m.content.length - c)))
          seq c max_results _ 0 positions rfl hrun.1]
        rw [ih (c + (Manager.searchChunkSize + 1 - seq.length)) _ (by omega)
          (by
            rw [List.length_append, List.length_take, List.length_map]
            omega)]
        rw [occList_split_gen m.content seq c Manager.searchChunkSize hrun.2 (by omega),
          List.take_append_eq_append_take, ← List.append_assoc]
        rw [show max_results -
            (positions ++
              ((matchOffsets
                ((m.content.drop c).take (min Manager.searchChunkSize (m.content.length - c)))
                seq 0).map (c + ·)).take (max_results - positions.length)).length =
          (max_results - positions.length) -
            ((matchOffsets
              ((m.content.drop c).take (min Manager.searchChunkSize (m.content.length - c)))
              seq 0).map (c + ·)).length from by
          rw [List.length_append, List.length_take]
          omega]
    · rw [if_neg hrun]
      by_cases hp : positions.length < max_results
      · have hcn : m.content.length ≤ c := by
          rcases Decidable.not_and_iff_or_not.1 hrun with h | h
          · omega
          · omega
        rw [occList_nil m.content seq c (by omega), List.take_nil, List.append_nil]
      · rw [show max_results - positions.length = 0 from by omega, List.take_zero,
          List.append_nil]

lemma search_sequence_eq (m : Manager) (seq : List Char) (mr sf : Nat) :
    Manager.search_sequence m seq mr sf =
      match Manager.searchLoop m seq mr (m.get_file_size + 1) sf [] with
      | .ok positions => .ok positions
      | .error _ => .error .storageError := rfl

/-- C7 (amended): for a digit sequence of length between 1 and the scan
window size (100000), `search_sequence` returns exactly the first
`max_results` elements of the ascending list of all occurrence
positions at or after `start_from` — in particular the positions are
strictly ascending, no occurrence in range is missed (including ones
straddling a window boundary) and none is reported twice.  For
sequences longer than the window size the original claim fails: the
scan breaks out before examining any window.  (Stated over the
no-cache read path of a pure-digit canonical file, where `get_digits`
returns the exact requested slice.) -/
theorem C7_search_enumerates (m : Manager) (sequence : List Char)
    (max_results start_from : Nat)
    (hdb : m.db = []) (hdig : m.content.all isAsciiDigit = true)
    (hL1 : 1 ≤ sequence.length) (hLW : sequence.length ≤ Manager.searchChunkSize) :
    Manager.search_sequence m sequence max_results start_from =
      Except.ok ((occList m.content sequence start_from).take max_results) := by
  unfold Manager.search_sequence
  rw [searchLoop_spec m sequence max_results hdb hdig hL1 hLW
    (m.get_file_size + 1) start_from []
    (by rw [show m.get_file_size = m.content.length from rfl]; omega)
    (by simp)]
  simp

/-- C7 counterexample: over a canonical file of 100001 `'1'` digits, the
sequence of 100001 `'1'`s occurs at position 0 and is in range, yet
`search_sequence` returns `[]`: the window size is 100000, every window
is shorter than the sequence, and the scan breaks out immediately. -/
theorem C7_counterexample :
    (managerC7.content.drop 0).take (List.replicate 100001 '1').length =
      List.replicate 100001 '1' ∧
    0 + (List.replicate 100001 '1').length ≤ managerC7.content.length ∧
    Manager.search_sequence managerC7 (List.replicate 100001 '1') 100 0 =
      Except.ok [] := by
  have hfs : managerC7.get_file_size = 100001 := by
    show (List.replicate 100001 '1').length = 100001
    rw [List.length_replicate]
  have h4 : Manager.searchLoop managerC7 (List.replicate 100001 '1') 100
      (100001 + 1) 0 [] = Except.ok [] := by
    unfold Manager.searchLoop
    rw [hfs]
    dsimp only
    rw [List.length_replicate]
    rw [if_pos (show ([] : List Nat).length < 100 ∧ 0 < 100001 from by
      constructor <;> decide)]
    rw [if_pos (by decide : min Manager.searchChunkSize (100001 - 0) < 100001)]
  refine ⟨?_, ?_, ?_⟩
  · show ((List.replicate 100001 '1').drop 0).take (List.replicate 100001 '1').length =
      List.replicate 100001 '1'
    rw [List.drop_zero, List.length_replicate, List.take_replicate, Nat.min_self]
  · show 0 + (List.replicate 100001 '1').length ≤ (List.replicate 100001 '1').length
    rw [List.length_replicate]
  · rw [search_sequence_eq, hfs, h4]

/-- C7 witness: over the file `"12312"`, searching `"12"` from 0 with
`max_results = 10` returns exactly the occurrence positions `[0, 3]` —
ascending, complete, duplicate-free. -/
theorem C7_witness :
    Manager.search_sequence managerC7w ['1', '2'] 10 0 =
      Except.ok ((occList managerC7w.content ['1', '2'] 0).take 10) ∧
    (occList managerC7w.content ['1', '2'] 0).take 10 = [0, 3] :=
  ⟨C7_search_enumerates managerC7w ['1', '2'] 10 0 (by rfl) (by decide) (by decide)
    (by decide), by rfl⟩
